import Mathlib

/-!
Verification of the local-vectordb index subsystem.

Shallow embedding of the three indexes of the repository
(BruteForceCosineSimilarityIndex in src/models/collection.py, IVFIndex in
src/models/ivf_index.py, NSWIndex in src/models/nsw_index.py).

Modelling conventions:
  - record ids (UUIDs) are modelled as natural numbers;
  - vectors (numpy float arrays) are modelled as lists of rationals; the
    float rounding itself is idealised away, as the spec allows
    (section 4.5: no bit-exact guarantee);
  - a cosine similarity value dot q v / (norm q * norm v) is irrational in
    general, so it is represented exactly by the structure Score below: the
    pair of the rational numerator (the dot product) and the rational
    square of the denominator (the product of the two squared norms).
    A Score with denSq = 0 represents the IEEE NaN that the float code
    produces on a 0/0 division; every float comparison against a NaN is
    false, and Score.ltB mirrors that;
  - Python dicts are modelled as insertion-ordered association lists,
    Python sets as lists without duplicates (insertion appends when the
    element is new, matching the only observable uses in the source);
  - the external embedding provider (src/embeddings.py, a network call) is
    a function parameter of type EmbedFn;
  - numpy raises on a dot product of vectors of distinct lengths; the
    error path this opens in NSWIndex.add (and in the rebuild neighbor
    pass) is modelled explicitly through dimClash, while in the remaining
    code paths dotp truncates and theorems that depend on it carry
    explicit dimension hypotheses.
-/

/-- A vector: list of rational coordinates. -/
abbrev Vec := List ℚ

/-- An embedding provider, mapping a query string to a vector
(models get_embeddings_bulk applied to a one-element batch). -/
abbrev EmbedFn := String → Vec

/-- Dot product of two vectors (np.dot on 1-D arrays). -/
def dotp (a b : Vec) : ℚ := (List.zipWith (· * ·) a b).sum

/-- Squared Euclidean norm of a vector; np.linalg.norm of v is its
square root, and norm v equals zero exactly when normSq v equals zero. -/
def normSq (v : Vec) : ℚ := dotp v v

/-- Squared Euclidean distance between two vectors (used for IVF centroid
routing; the source sorts by np.linalg.norm of the difference, and sorting
by the squared distance yields the same order since sqrt is monotone). -/
def distSq (a b : Vec) : ℚ := normSq (List.zipWith (· - ·) a b)

/-- Exact representation of a similarity value num / sqrt denSq.
For a cosine similarity, num is the dot product and denSq the product of
the two squared norms.  denSq = 0 encodes the float NaN produced by the
0/0 division in code paths that do not guard the denominator. -/
structure Score where
  num : ℚ
  denSq : ℚ
deriving DecidableEq, Repr

/-- Strict comparison of two scores, mirroring the float comparison
num1/sqrt d1 < num2/sqrt d2.  Any comparison involving a NaN
(denSq = 0, or a negative denSq, which never occurs) is false, exactly as
for IEEE floats.  On well-defined scores the Boolean agrees with the real
order, see score_ltB_iff_real below. -/
def Score.ltB (a b : Score) : Bool :=
  if a.denSq ≤ 0 ∨ b.denSq ≤ 0 then false
  else if a.num < 0 then
    if 0 ≤ b.num then true
    else decide (b.num ^ 2 * a.denSq < a.num ^ 2 * b.denSq)
  else if a.num = 0 then decide (0 < b.num)
  else if b.num ≤ 0 then false
  else decide (a.num ^ 2 * b.denSq < b.num ^ 2 * a.denSq)

/-- The guarded confidence computation shared by the brute-force index and
by NSWIndex: if the norm product is zero the code sets the confidence to
0.0, otherwise it divides.  (IVFIndex.search performs no such guard.) -/
def mkConf (d dsq : ℚ) : Score :=
  if dsq = 0 then ⟨0, 1⟩ else ⟨d, dsq⟩

/-- A search result, as in src/models/search.py (confidence is always set
by the index code paths modelled here, so the Option is dropped). -/
structure SearchResult where
  id : Nat
  confidence : Score
deriving DecidableEq, Repr

/-- Insert into a list sorted non-increasingly by confidence, placing the
new element before the first strictly smaller one.  Together with sortDesc
this models the stable descending Python list.sort with reverse=True. -/
def insertDesc (x : SearchResult) : List SearchResult → List SearchResult
  | [] => [x]
  | y :: ys =>
    if Score.ltB x.confidence y.confidence then y :: insertDesc x ys
    else x :: y :: ys

/-- Stable sort by confidence, descending (list.sort with reverse=True). -/
def sortDesc : List SearchResult → List SearchResult
  | [] => []
  | x :: xs => insertDesc x (sortDesc xs)

/-- True when the Python expression (not query.strip()) is true: the query
is empty or consists of whitespace only. -/
def isBlank (q : String) : Bool := q.toList.all Char.isWhitespace

/-! ### Insertion-ordered association lists (Python dict model) -/

/-- Key membership in an association list (the Python membership test). -/
def hasKey {α : Type} (m : List (Nat × α)) (k : Nat) : Bool :=
  m.any (fun p => p.1 == k)

/-- Lookup (d[k]); none models a KeyError. -/
def alookup {α : Type} (m : List (Nat × α)) (k : Nat) : Option α :=
  (m.find? (fun p => p.1 == k)).map (·.2)

/-- Assignment d[k] = v: replaces the value in place when the key exists,
otherwise appends the new binding (Python dict insertion order). -/
def aset {α : Type} (m : List (Nat × α)) (k : Nat) (v : α) : List (Nat × α) :=
  if hasKey m k then m.map (fun p => if p.1 == k then (k, v) else p)
  else m ++ [(k, v)]

/-- Deletion del d[k] (a no-op on an absent key models the guarded
deletions in the source, which always test membership first). -/
def aerase {α : Type} (m : List (Nat × α)) (k : Nat) : List (Nat × α) :=
  m.filter (fun p => p.1 ≠ k)

/-- In-place update of the value at a key, a no-op when the key is absent
(models the guarded pattern: if k in d: mutate d[k]). -/
def aupdate {α : Type} (m : List (Nat × α)) (k : Nat) (f : α → α) :
    List (Nat × α) :=
  m.map (fun p => if p.1 == k then (p.1, f p.2) else p)

/-- The key list of an association list. -/
def keysOf {α : Type} (m : List (Nat × α)) : List Nat := m.map (·.1)

/-! ### Python set model: lists without duplicates -/

/-- s.add(x): append when new. -/
def setInsert (s : List Nat) (x : Nat) : List Nat :=
  if x ∈ s then s else s ++ [x]

/-- s.discard(x). -/
def setErase (s : List Nat) (x : Nat) : List Nat := s.filter (· ≠ x)

/-- set(xs): deduplicate, keeping first occurrences. -/
def setFromList (xs : List Nat) : List Nat := xs.foldl setInsert []

/-- A data record as the index layer sees it: an id and an optional
embedding.  none models every case the source skips (a record without an
embedding field, an embedding that is not a list, a Chunk whose embedding
is None). -/
structure Record where
  id : Nat
  embedding : Option Vec
deriving DecidableEq, Repr

/-! ### BruteForceCosineSimilarityIndex (src/models/collection.py) -/

/-- State of the brute-force index: the id to vector dict. -/
structure BruteForceCosineSimilarityIndex where
  embeddings : List (Nat × Vec)
deriving DecidableEq, Repr

/-- rebuild: clear, then store every record with a valid embedding. -/
def BruteForceCosineSimilarityIndex.rebuild (items : List Record) :
    BruteForceCosineSimilarityIndex :=
  ⟨items.foldl
    (fun m it =>
      match it.embedding with
      | some e => aset m it.id e
      | none => m)
    []⟩

/-- add: store (or replace) the embedding; records without one are
skipped with a warning. -/
def BruteForceCosineSimilarityIndex.add
    (s : BruteForceCosineSimilarityIndex) (it : Record) :
    BruteForceCosineSimilarityIndex :=
  match it.embedding with
  | some e => ⟨aset s.embeddings it.id e⟩
  | none => s

/-- remove: delete the mapping when present. -/
def BruteForceCosineSimilarityIndex.remove
    (s : BruteForceCosineSimilarityIndex) (i : Nat) :
    BruteForceCosineSimilarityIndex :=
  ⟨aerase s.embeddings i⟩

/-- The guarded cosine confidence of the scan loop: dot and norm product,
with the norm-product-zero branch yielding 0.0. -/
def scoreOf (qv v : Vec) : Score := mkConf (dotp qv v) (normSq qv * normSq v)

/-- The similarity list built by the scan loop of search: every stored
vector with non-zero norm, scored against the query, in dict order. -/
def bfSims (s : BruteForceCosineSimilarityIndex) (qv : Vec) :
    List SearchResult :=
  (s.embeddings.filter (fun p => decide (normSq p.2 ≠ 0))).map
    (fun p => ⟨p.1, scoreOf qv p.2⟩)

/-- search: empty map or zero-norm query short-circuit to the empty list,
otherwise scan, sort descending, truncate to the limit. -/
def BruteForceCosineSimilarityIndex.search
    (embed : EmbedFn) (s : BruteForceCosineSimilarityIndex)
    (q : String) (k : Nat) : List SearchResult :=
  if s.embeddings = [] then []
  else
    let qv := embed q
    if normSq qv = 0 then []
    else (sortDesc (bfSims s qv)).take k

/-! ### NSWIndex (src/models/nsw_index.py) -/

/-- State of the NSW index: id to vector dict, id to neighbor-set dict,
and the out-degree target (ef_construction is stored by the source but
never read, so it is omitted). -/
structure NSWIndex where
  embeddings : List (Nat × Vec)
  graph : List (Nat × List Nat)
  nNeighbors : Nat
deriving DecidableEq, Repr

/-- The private cosine similarity helper of NSWIndex: returns 0.0 when
either norm is zero (equivalently, when the product of the squared norms
is zero), otherwise the quotient. -/
def NSWIndex.cosineSimilarity (v1 v2 : Vec) : Score :=
  mkConf (dotp v1 v2) (normSq v1 * normSq v2)

/-- find_nearest_neighbors: scan all stored vectors, skipping the item
itself and zero-norm vectors, score by guarded cosine similarity, sort
descending, keep the first k. -/
def NSWIndex.findNearestNeighbors (emb : List (Nat × Vec)) (itemId : Nat)
    (e : Vec) (k : Nat) : List SearchResult :=
  (sortDesc
    ((emb.filter (fun p => decide (p.1 ≠ itemId ∧ normSq p.2 ≠ 0))).map
      (fun p => ⟨p.1, mkConf (dotp e p.2) (normSq e * normSq p.2)⟩))).take k

/-- rebuild: clear both maps, store every valid embedding, then give each
node the ids of its nearest neighbors as its out-set. -/
def NSWIndex.rebuild (s : NSWIndex) (items : List Record) : NSWIndex :=
  let emb := items.foldl
    (fun m it =>
      match it.embedding with
      | some e => aset m it.id e
      | none => m)
    []
  let graph := emb.map
    (fun p =>
      (p.1,
        setFromList
          ((NSWIndex.findNearestNeighbors emb p.1 p.2 s.nNeighbors).map
            (·.id))))
  ⟨emb, graph, s.nNeighbors⟩

/-- True when the neighbor scan for the given item raises: np.dot of two
1-D arrays of different lengths raises ValueError, and the scan reaches
the dot product for every stored vector other than the item itself whose
norm is non-zero (the zero-norm test precedes the dot and skips the
entry).  The checks short-circuit in source order. -/
def dimClash (emb : List (Nat × Vec)) (itemId : Nat) (e : Vec) : Bool :=
  emb.any (fun p =>
    decide (p.1 ≠ itemId) && decide (normSq p.2 ≠ 0) &&
      decide (p.2.length ≠ e.length))

/-- True when the graph-building pass of rebuild raises: some collected
item clashes with another collected non-zero-norm vector of a different
dimension.  When it raises, the source leaves the embedding map full and
the graph partial; reachability below only follows non-raising rebuilds. -/
def nswRebuildRaises (emb : List (Nat × Vec)) : Bool :=
  emb.any (fun p => dimClash emb p.1 p.2)

/-- add: store the vector first, then connect the new node to its nearest
neighbors and add the reverse edge into each neighbor that has a graph
entry.  When the neighbor scan hits a stored non-zero-norm vector of a
different dimension, np.dot raises ValueError AFTER the embedding was
stored and BEFORE any graph update: the returned pair carries the
partially mutated state and the raised error. -/
def NSWIndex.add (s : NSWIndex) (it : Record) : NSWIndex × Option String :=
  match it.embedding with
  | none => (s, none)
  | some e =>
    let emb := aset s.embeddings it.id e
    if dimClash emb it.id e then
      (⟨emb, s.graph, s.nNeighbors⟩,
        some "ValueError: dot of mismatched shapes")
    else
      let nbrIds :=
        (NSWIndex.findNearestNeighbors emb it.id e s.nNeighbors).map (·.id)
      let g1 := aset s.graph it.id (setFromList nbrIds)
      let g2 := nbrIds.foldl (fun g n => aupdate g n (fun v => setInsert v it.id)) g1
      (⟨emb, g2, s.nNeighbors⟩, none)

/-- remove: drop the vector; when a graph entry exists, discard the
reverse edge from each of its out-neighbors, then drop the entry. -/
def NSWIndex.remove (s : NSWIndex) (i : Nat) : NSWIndex :=
  let emb := aerase s.embeddings i
  match alookup s.graph i with
  | none => ⟨emb, s.graph, s.nNeighbors⟩
  | some nbrs =>
    let g1 := nbrs.foldl (fun g n => aupdate g n (fun v => setErase v i)) s.graph
    ⟨emb, aerase g1 i, s.nNeighbors⟩

/-- A traversal candidate: a (similarity, id) pair. -/
abbrev Candidate := Score × Nat

/-- Python max(candidates, key of the first component): the first
candidate whose similarity is maximal; the running best is replaced only
when a strictly greater similarity appears. -/
def maxCand (c : Candidate) (cs : List Candidate) : Candidate :=
  cs.foldl (fun acc x => if Score.ltB acc.1 x.1 then x else acc) c

/-- The while loop of NSWIndex.search, with explicit fuel (the loop always
terminates because the visited set only grows; the fuel supplied by
NSWIndex.search is sufficient).  Each iteration pops the first maximal
candidate, appends it to the results, evaluates the break condition of the
source exactly as Python parses it, that is
(have enough results AND popped similarity below the head of the remaining
candidate list) when that list is non-empty, and True when it is empty,
and otherwise pushes the unvisited neighbors of the popped node. -/
def nswLoop (s : NSWIndex) (qv : Vec) (k : Nat) :
    Nat → List Candidate → List Nat → List SearchResult → List SearchResult
  | 0, _, _, best => best
  | fuel + 1, candidates, visited, best =>
    match candidates with
    | [] => best
    | c0 :: cs =>
      let m := maxCand c0 cs
      let candidates1 := (c0 :: cs).erase m
      let best1 := best ++ [⟨m.2, m.1⟩]
      let brk : Bool :=
        match candidates1 with
        | [] => true
        | d :: _ => decide (k ≤ best1.length) && Score.ltB m.1 d.1
      if brk then best1
      else
        let nbrs := (alookup s.graph m.2).getD []
        let step :=
          nbrs.foldl
            (fun (acc : List Candidate × List Nat) n =>
              if n ∈ acc.2 then acc
              else
                (acc.1 ++
                    [(NSWIndex.cosineSimilarity qv
                        ((alookup s.embeddings n).getD []), n)],
                  acc.2 ++ [n]))
            (candidates1, visited)
        nswLoop s qv k fuel step.1 step.2 best1

/-- search: empty map or zero-norm query return empty; otherwise traverse
from the first key of the graph dict and return the accumulated results
sorted descending, truncated to the limit.  An empty graph beside a
non-empty embedding map makes the entry-point draw
next(iter(self.graph.keys())) raise StopIteration in the source; that
state is reachable (an interrupted mismatched-dimension add followed by a
remove, see the C9 counterexample), and the model returns the error. -/
def NSWIndex.search (embed : EmbedFn) (s : NSWIndex) (q : String) (k : Nat) :
    Except String (List SearchResult) :=
  if s.embeddings = [] then Except.ok []
  else
    let qv := embed q
    if normSq qv = 0 then Except.ok []
    else
      match s.graph with
      | [] => Except.error "StopIteration: entry point from empty graph"
      | (entry, _) :: _ =>
        let c0 : Candidate :=
          (NSWIndex.cosineSimilarity qv ((alookup s.embeddings entry).getD []),
            entry)
        let best := nswLoop s qv k (s.embeddings.length + 1) [c0] [entry] []
        Except.ok ((sortDesc best).take k)

/-! ### IVFIndex (src/models/ivf_index.py) -/

/-- The fitted state of the scikit-learn KMeans estimator that the index
keeps: its centroid array. -/
structure KMeansModel where
  centroids : List Vec
deriving DecidableEq, Repr

/-- Number of features the fitted estimator expects (the centroid
dimension). -/
def KMeansModel.nFeatures (m : KMeansModel) : Nat :=
  (m.centroids.headD []).length

/-- Index of the first minimal element (np.argmin). -/
def argminAux (i best : Nat) (bv : ℚ) : List ℚ → Nat
  | [] => best
  | x :: xs => if x < bv then argminAux (i + 1) i x xs else argminAux (i + 1) best bv xs

/-- Index of the first minimal element of a list of rationals. -/
def argminIdx : List ℚ → Nat
  | [] => 0
  | x :: xs => argminAux 1 0 x xs

/-- KMeans.predict on a single sample: scikit-learn first validates the
feature count (raising ValueError on a mismatch, modelled as an error),
then returns the index of the nearest centroid, the first one on ties. -/
def KMeansModel.predict (m : KMeansModel) (v : Vec) : Except String Nat :=
  if v.length ≠ m.nFeatures then Except.error "predict: feature count mismatch"
  else Except.ok (argminIdx (m.centroids.map (fun c => distSq c v)))

/-- State of the IVF index. -/
structure IVFIndex where
  nClusters : Nat
  kmeans : Option KMeansModel
  clusterAssignments : List (Nat × List Nat)
  embeddings : List (Nat × Vec)
deriving DecidableEq, Repr

/-- Append an id to a cluster member list, creating the key when absent
(the pattern: if cluster_id not in assignments, assignments of cluster_id
becomes the empty list; then append). -/
def appendToCluster (m : List (Nat × List Nat)) (c : Nat) (i : Nat) :
    List (Nat × List Nat) :=
  if hasKey m c then aupdate m c (fun l => l ++ [i]) else m ++ [(c, [i])]

/-- rebuild: clear the two maps (the source does not clear the fitted
estimator), collect every record with an embedding; when none remain,
return.  Otherwise fit KMeans with min of n_clusters and the sample count
clusters and assign each vector to its predicted cluster in input order.
The training itself is external (scikit-learn, seeded with 42); it is
passed in as the fit argument returning the centroids and the per-sample
labels. -/
def IVFIndex.rebuild (fit : Nat → List Vec → KMeansModel × List Nat)
    (s : IVFIndex) (items : List Record) : IVFIndex :=
  let valid := items.filterMap (fun it => it.embedding.map (fun e => (it.id, e)))
  if valid = [] then ⟨s.nClusters, s.kmeans, [], []⟩
  else
    let n := min s.nClusters valid.length
    let fitted := fit n (valid.map (·.2))
    let st :=
      (valid.zip fitted.2).foldl
        (fun (acc : List (Nat × List Nat) × List (Nat × Vec)) p =>
          (appendToCluster acc.1 p.2 p.1.1, aset acc.2 p.1.1 p.1.2))
        ([], [])
    ⟨s.nClusters, some fitted.1, st.1, st.2⟩

/-- add: records without an embedding are skipped.  On an untrained index
the source constructs KMeans with n_clusters equal to the configured
n_clusters (100 by default) and fits it on this single vector;
scikit-learn rejects a fit with fewer samples than clusters (and rejects
zero clusters), so this succeeds only when n_clusters is exactly 1, with
the single vector as the centroid.  Then the vector is assigned to its
predicted cluster and stored. -/
def IVFIndex.add (s : IVFIndex) (it : Record) : Except String IVFIndex :=
  match it.embedding with
  | none => Except.ok s
  | some e =>
    let kmE : Except String KMeansModel :=
      match s.kmeans with
      | some km => Except.ok km
      | none =>
        if s.nClusters = 1 then Except.ok ⟨[e]⟩
        else Except.error "KMeans.fit: n_samples should be >= n_clusters"
    match kmE with
    | Except.error msg => Except.error msg
    | Except.ok km =>
      match km.predict e with
      | Except.error msg => Except.error msg
      | Except.ok cid =>
        Except.ok
          ⟨s.nClusters, some km, appendToCluster s.clusterAssignments cid it.id,
            aset s.embeddings it.id e⟩

/-- Remove the first occurrence of an id across the cluster member lists,
scanning clusters in key order and stopping after the first hit. -/
def removeFirstOcc (m : List (Nat × List Nat)) (i : Nat) :
    List (Nat × List Nat) :=
  match m with
  | [] => []
  | (c, l) :: rest =>
    if i ∈ l then (c, l.erase i) :: rest else (c, l) :: removeFirstOcc rest i

/-- remove: a no-op when the id has no stored embedding; otherwise drop
the first cluster occurrence and the embedding (empty clusters are
retained). -/
def IVFIndex.remove (s : IVFIndex) (i : Nat) : IVFIndex :=
  if hasKey s.embeddings i then
    ⟨s.nClusters, s.kmeans, removeFirstOcc s.clusterAssignments i,
      aerase s.embeddings i⟩
  else s

/-- Stable ascending insertion for (index, value) pairs: on equal values
the earlier index stays first. -/
def insertIdxAsc (p : Nat × ℚ) : List (Nat × ℚ) → List (Nat × ℚ)
  | [] => [p]
  | q :: qs => if p.2 < q.2 then p :: q :: qs else q :: insertIdxAsc p qs

/-- np.argsort of a list of rationals: the indices ordered by ascending
value (ties resolved toward the smaller index; numpy leaves tie order
unspecified, and no claim depends on it). -/
def argsortAsc (xs : List ℚ) : List Nat :=
  (xs.enum.foldl (fun acc p => insertIdxAsc p acc) []).map (·.1)

/-- The clusters probed by search: the n_probe = min(3, number of cluster
keys) centroid indices nearest to the query in Euclidean distance
(equivalently: in squared distance). -/
def IVFIndex.probedClusters (s : IVFIndex) (km : KMeansModel) (qv : Vec) :
    List Nat :=
  let nprobe := min 3 s.clusterAssignments.length
  (argsortAsc (km.centroids.map (fun c => distSq c qv))).take nprobe

/-- The candidate ids gathered from the probed clusters, in probe order
(clusters absent from the assignment dict contribute nothing). -/
def IVFIndex.candidateIds (s : IVFIndex) (km : KMeansModel) (qv : Vec) :
    List Nat :=
  (IVFIndex.probedClusters s km qv).foldl
    (fun acc c =>
      match alookup s.clusterAssignments c with
      | some l => acc ++ l
      | none => acc)
    []

/-- search: a blank query, an untrained estimator or an empty embedding
map return the empty list before the provider is consulted.  Otherwise
the query is embedded; the source then calls predict on the query (its
result is discarded, but the feature-count validation can raise), probes
the nearest clusters, scores every candidate id that still has an
embedding with the UNGUARDED cosine quotient (a zero norm produces the
float NaN, modelled as a Score with denSq zero), sorts descending and
truncates. -/
def IVFIndex.search (embed : EmbedFn) (s : IVFIndex) (q : String) (k : Nat) :
    Except String (List SearchResult) :=
  if isBlank q then Except.ok []
  else
    match s.kmeans with
    | none => Except.ok []
    | some km =>
      if s.embeddings = [] then Except.ok []
      else
        let qv := embed q
        match km.predict qv with
        | Except.error msg => Except.error msg
        | Except.ok _ =>
          let cands := IVFIndex.candidateIds s km qv
          if cands = [] then Except.ok []
          else
            Except.ok
              ((sortDesc
                  (cands.filterMap
                    (fun i =>
                      (alookup s.embeddings i).map
                        (fun v =>
                          (⟨i, ⟨dotp qv v, normSq qv * normSq v⟩⟩ :
                            SearchResult))))).take k)

/-! ### Order theory for exact scores -/

/-- The squared norm is a sum of squares, hence non-negative. -/
theorem normSq_nonneg (v : Vec) : 0 ≤ normSq v := by
  unfold normSq dotp
  induction v with
  | nil => simp
  | cons x xs ih =>
    simp only [List.zipWith, List.sum_cons]
    have hx : 0 ≤ x * x := mul_self_nonneg x
    linarith

/-- The Boolean comparison of well-defined scores agrees with the real
order of the represented values num / sqrt denSq. -/
theorem score_ltB_iff_real (a b : Score) (ha : 0 < a.denSq) (hb : 0 < b.denSq) :
    Score.ltB a b = true ↔
      (a.num : ℝ) / Real.sqrt (a.denSq : ℝ) <
        (b.num : ℝ) / Real.sqrt (b.denSq : ℝ) := by
  have haR : (0 : ℝ) < (a.denSq : ℝ) := by exact_mod_cast ha
  have hbR : (0 : ℝ) < (b.denSq : ℝ) := by exact_mod_cast hb
  have hsa : (0 : ℝ) < Real.sqrt (a.denSq : ℝ) := Real.sqrt_pos.mpr haR
  have hsb : (0 : ℝ) < Real.sqrt (b.denSq : ℝ) := Real.sqrt_pos.mpr hbR
  have hqa : Real.sqrt ((a.denSq : ℝ)) ^ 2 = (a.denSq : ℝ) := Real.sq_sqrt haR.le
  have hqb : Real.sqrt ((b.denSq : ℝ)) ^ 2 = (b.denSq : ℝ) := Real.sq_sqrt hbR.le
  have hcond : ¬ (a.denSq ≤ 0 ∨ b.denSq ≤ 0) := by
    push_neg
    exact ⟨ha, hb⟩
  rw [div_lt_div_iff₀ hsa hsb]
  unfold Score.ltB
  rw [if_neg hcond]
  by_cases h1 : a.num < 0
  · have h1R : (a.num : ℝ) < 0 := by exact_mod_cast h1
    rw [if_pos h1]
    by_cases h2 : (0 : ℚ) ≤ b.num
    · have h2R : (0 : ℝ) ≤ (b.num : ℝ) := by exact_mod_cast h2
      rw [if_pos h2]
      simp only [true_iff]
      exact lt_of_lt_of_le (mul_neg_of_neg_of_pos h1R hsb)
        (mul_nonneg h2R hsa.le)
    · rw [if_neg h2]
      push_neg at h2
      have h2R : (b.num : ℝ) < 0 := by exact_mod_cast h2
      rw [decide_eq_true_eq]
      have hcast :
          (b.num ^ 2 * a.denSq < a.num ^ 2 * b.denSq) ↔
            ((b.num : ℝ) ^ 2 * (a.denSq : ℝ) < (a.num : ℝ) ^ 2 * (b.denSq : ℝ)) := by
        constructor <;> intro h <;> exact_mod_cast h
      rw [hcast]
      constructor
      · intro h
        by_contra hc
        push_neg at hc
        nlinarith [hc, h, hqa, hqb, hsa, hsb,
          mul_neg_of_neg_of_pos h1R hsb, mul_neg_of_neg_of_pos h2R hsa]
      · intro h
        nlinarith [h, hqa, hqb, hsa, hsb,
          mul_neg_of_neg_of_pos h1R hsb, mul_neg_of_neg_of_pos h2R hsa]
  · rw [if_neg h1]
    push_neg at h1
    by_cases h0 : a.num = 0
    · rw [if_pos h0]
      rw [decide_eq_true_eq]
      have h0R : (a.num : ℝ) = 0 := by exact_mod_cast h0
      rw [h0R, zero_mul]
      constructor
      · intro h
        have hR : (0 : ℝ) < (b.num : ℝ) := by exact_mod_cast h
        exact mul_pos hR hsa
      · intro h
        by_contra hneg
        push_neg at hneg
        have hnegR : (b.num : ℝ) ≤ 0 := by exact_mod_cast hneg
        nlinarith [hsa]
    · rw [if_neg h0]
      have hpos : (0 : ℚ) < a.num := lt_of_le_of_ne h1 (Ne.symm h0)
      have hposR : (0 : ℝ) < (a.num : ℝ) := by exact_mod_cast hpos
      by_cases h2 : b.num ≤ 0
      · rw [if_pos h2]
        have h2R : (b.num : ℝ) ≤ 0 := by exact_mod_cast h2
        simp only [Bool.false_eq_true, false_iff, not_lt]
        exact le_trans (mul_nonpos_of_nonpos_of_nonneg h2R hsa.le)
          (mul_nonneg hposR.le hsb.le)
      · rw [if_neg h2]
        push_neg at h2
        have h2R : (0 : ℝ) < (b.num : ℝ) := by exact_mod_cast h2
        rw [decide_eq_true_eq]
        have hcast :
            (a.num ^ 2 * b.denSq < b.num ^ 2 * a.denSq) ↔
              ((a.num : ℝ) ^ 2 * (b.denSq : ℝ) < (b.num : ℝ) ^ 2 * (a.denSq : ℝ)) := by
          constructor <;> intro h <;> exact_mod_cast h
        rw [hcast]
        constructor
        · intro h
          by_contra hc
          push_neg at hc
          nlinarith [hc, h, hqa, hqb, hsa, hsb,
            mul_pos hposR hsb, mul_pos h2R hsa]
        · intro h
          nlinarith [h, hqa, hqb, hsa, hsb,
            mul_pos hposR hsb, mul_pos h2R hsa]

/-- Negated form of the comparison bridge. -/
theorem score_ltB_false_iff (a b : Score) (ha : 0 < a.denSq) (hb : 0 < b.denSq) :
    Score.ltB a b = false ↔
      (b.num : ℝ) / Real.sqrt (b.denSq : ℝ) ≤
        (a.num : ℝ) / Real.sqrt (a.denSq : ℝ) := by
  rw [← not_lt, ← score_ltB_iff_real a b ha hb]
  cases h : Score.ltB a b <;> simp

/-- The strict comparison is asymmetric on well-defined scores. -/
theorem score_ltB_asymm {a b : Score} (ha : 0 < a.denSq) (hb : 0 < b.denSq)
    (h : Score.ltB a b = true) : Score.ltB b a = false := by
  rw [score_ltB_false_iff b a hb ha]
  exact ((score_ltB_iff_real a b ha hb).mp h).le

/-- The negated comparison is transitive on well-defined scores. -/
theorem score_nltB_trans {a b c : Score} (ha : 0 < a.denSq) (hb : 0 < b.denSq)
    (hc : 0 < c.denSq) (hab : Score.ltB a b = false)
    (hbc : Score.ltB b c = false) : Score.ltB a c = false := by
  rw [score_ltB_false_iff a b ha hb] at hab
  rw [score_ltB_false_iff b c hb hc] at hbc
  rw [score_ltB_false_iff a c ha hc]
  exact le_trans hbc hab

/-! ### Sorting lemmas -/

/-- The descending relation the sort establishes: the left element is not
strictly below the right one. -/
def DescRel (a b : SearchResult) : Prop :=
  Score.ltB a.confidence b.confidence = false

/-- Inserting permutes. -/
theorem insertDesc_perm (x : SearchResult) (l : List SearchResult) :
    List.Perm (insertDesc x l) (x :: l) := by
  induction l with
  | nil => simp [insertDesc]
  | cons y ys ih =>
    rw [insertDesc]
    by_cases hxy : Score.ltB x.confidence y.confidence = true
    · rw [if_pos hxy]
      exact List.Perm.trans (List.Perm.cons y ih) (List.Perm.swap x y ys)
    · rw [if_neg hxy]

/-- Sorting permutes. -/
theorem sortDesc_perm (l : List SearchResult) :
    List.Perm (sortDesc l) l := by
  induction l with
  | nil => simp [sortDesc]
  | cons x xs ih =>
    rw [sortDesc]
    exact List.Perm.trans (insertDesc_perm x (sortDesc xs)) (List.Perm.cons x ih)

/-- Membership is preserved by sorting. -/
theorem mem_sortDesc {r : SearchResult} {l : List SearchResult} :
    r ∈ sortDesc l ↔ r ∈ l :=
  (sortDesc_perm l).mem_iff

/-- Sorting preserves length. -/
theorem sortDesc_length (l : List SearchResult) :
    (sortDesc l).length = l.length :=
  (sortDesc_perm l).length_eq

/-- Inserting into a descending list of well-defined scores keeps it
descending. -/
theorem insertDesc_sorted (x : SearchResult) (l : List SearchResult)
    (hx : 0 < x.confidence.denSq)
    (hl : ∀ y ∈ l, 0 < y.confidence.denSq)
    (h : List.Pairwise DescRel l) :
    List.Pairwise DescRel (insertDesc x l) := by
  induction l with
  | nil => simp [insertDesc, List.Pairwise]
  | cons y ys ih =>
    have hy : 0 < y.confidence.denSq := hl y (List.mem_cons_self y ys)
    have hys : ∀ z ∈ ys, 0 < z.confidence.denSq := fun z hz =>
      hl z (List.mem_cons_of_mem y hz)
    rcases List.pairwise_cons.mp h with ⟨hyrel, hpw⟩
    rw [insertDesc]
    by_cases hxy : Score.ltB x.confidence y.confidence = true
    · rw [if_pos hxy]
      refine List.Pairwise.cons ?_ (ih hys hpw)
      intro z hz
      have hz' : z = x ∨ z ∈ ys := by
        have hmem := (insertDesc_perm x ys).mem_iff.mp hz
        simpa using hmem
      cases hz' with
      | inl he =>
        subst he
        exact score_ltB_asymm hx hy hxy
      | inr hzys => exact hyrel z hzys
    · have hxy' : Score.ltB x.confidence y.confidence = false :=
        Bool.not_eq_true _ |>.mp hxy
      rw [if_neg hxy]
      refine List.Pairwise.cons ?_ h
      intro z hz
      rcases List.mem_cons.mp hz with he | hzys
      · subst he
        exact hxy'
      · exact score_nltB_trans hx hy (hys z hzys) hxy' (hyrel z hzys)

/-- Sorting a list of well-defined scores yields a descending list. -/
theorem sortDesc_sorted (l : List SearchResult)
    (hl : ∀ y ∈ l, 0 < y.confidence.denSq) :
    List.Pairwise DescRel (sortDesc l) := by
  induction l with
  | nil => simp [sortDesc, List.Pairwise]
  | cons x xs ih =>
    rw [sortDesc]
    have hx : 0 < x.confidence.denSq := hl x (List.mem_cons_self x xs)
    have hxs : ∀ y ∈ xs, 0 < y.confidence.denSq := fun y hy =>
      hl y (List.mem_cons_of_mem x hy)
    refine insertDesc_sorted x (sortDesc xs) hx ?_ (ih hxs)
    intro y hy
    exact hxs y (mem_sortDesc.mp hy)

/-- Every scored entry of the brute-force scan has a well-defined
(positive) squared denominator when the query norm is non-zero. -/
theorem bfSims_pos (s : BruteForceCosineSimilarityIndex) (qv : Vec)
    (hq : normSq qv ≠ 0) :
    ∀ r ∈ bfSims s qv, 0 < r.confidence.denSq := by
  intro r hr
  unfold bfSims at hr
  rcases List.mem_map.mp hr with ⟨p, hp, he⟩
  rcases List.mem_filter.mp hp with ⟨_, hcond⟩
  have hv : normSq p.2 ≠ 0 := by simpa using hcond
  have hprod : normSq qv * normSq p.2 ≠ 0 := mul_ne_zero hq hv
  have h1 : 0 < normSq qv := lt_of_le_of_ne (normSq_nonneg qv) (Ne.symm hq)
  have h2 : 0 < normSq p.2 := lt_of_le_of_ne (normSq_nonneg p.2) (Ne.symm hv)
  rw [← he]
  simp only [scoreOf, mkConf, if_neg hprod]
  exact mul_pos h1 h2

/-- C1: on a non-empty brute-force index and a query whose embedded
vector has non-zero norm, search returns the first min(k, n) entries of
the descending sort of the scored non-zero-norm stored vectors (n the
number of such vectors); the sort is a permutation of the scan list, the
output is sorted non-increasingly in the represented real cosine
similarity, and it contains a true top-k: every scored stored vector left
out has a similarity at most that of every returned one. -/
theorem C1_bruteforce_search_exact
    (embed : EmbedFn) (s : BruteForceCosineSimilarityIndex) (q : String)
    (k : Nat) (hne : s.embeddings ≠ []) (hq : normSq (embed q) ≠ 0) :
    BruteForceCosineSimilarityIndex.search embed s q k
        = (sortDesc (bfSims s (embed q))).take k
    ∧ List.Perm (sortDesc (bfSims s (embed q))) (bfSims s (embed q))
    ∧ (BruteForceCosineSimilarityIndex.search embed s q k).length
        = min k (bfSims s (embed q)).length
    ∧ List.Pairwise
        (fun r t =>
          (t.confidence.num : ℝ) / Real.sqrt (t.confidence.denSq : ℝ)
            ≤ (r.confidence.num : ℝ) / Real.sqrt (r.confidence.denSq : ℝ))
        (BruteForceCosineSimilarityIndex.search embed s q k)
    ∧ ∀ t ∈ bfSims s (embed q),
        t ∉ BruteForceCosineSimilarityIndex.search embed s q k →
          ∀ r ∈ BruteForceCosineSimilarityIndex.search embed s q k,
            (t.confidence.num : ℝ) / Real.sqrt (t.confidence.denSq : ℝ)
              ≤ (r.confidence.num : ℝ) / Real.sqrt (r.confidence.denSq : ℝ) := by
  have hsearch : BruteForceCosineSimilarityIndex.search embed s q k
      = (sortDesc (bfSims s (embed q))).take k := by
    unfold BruteForceCosineSimilarityIndex.search
    rw [if_neg hne]
    simp only [if_neg hq]
  have hpos := bfSims_pos s (embed q) hq
  have hpos' : ∀ r ∈ sortDesc (bfSims s (embed q)), 0 < r.confidence.denSq :=
    fun r hr => hpos r (mem_sortDesc.mp hr)
  have hsorted := sortDesc_sorted (bfSims s (embed q)) hpos
  have hsplit := List.take_append_drop k (sortDesc (bfSims s (embed q)))
  have hmem_take : ∀ r ∈ (sortDesc (bfSims s (embed q))).take k,
      r ∈ sortDesc (bfSims s (embed q)) :=
    fun r hr => List.mem_of_mem_take hr
  have hmem_drop : ∀ r ∈ (sortDesc (bfSims s (embed q))).drop k,
      r ∈ sortDesc (bfSims s (embed q)) :=
    fun r hr => List.mem_of_mem_drop hr
  refine ⟨hsearch, sortDesc_perm _, ?_, ?_, ?_⟩
  · rw [hsearch, List.length_take, sortDesc_length]
  · rw [hsearch]
    have htake : List.Pairwise DescRel ((sortDesc (bfSims s (embed q))).take k) :=
      hsorted.sublist (List.take_sublist k _)
    refine htake.imp_of_mem ?_
    intro a b hma hmb hab
    exact (score_ltB_false_iff a.confidence b.confidence
      (hpos' a (hmem_take a hma)) (hpos' b (hmem_take b hmb))).mp hab
  · intro t ht hnt r hr
    rw [hsearch] at hnt hr
    have htm : t ∈ sortDesc (bfSims s (embed q)) := mem_sortDesc.mpr ht
    rw [← hsplit] at htm hsorted
    have htd : t ∈ (sortDesc (bfSims s (embed q))).drop k := by
      rcases List.mem_append.mp htm with h | h
      · exact absurd h hnt
      · exact h
    have hcross := (List.pairwise_append.mp hsorted).2.2
    have hrel : DescRel r t := hcross r hr t htd
    exact (score_ltB_false_iff r.confidence t.confidence
      (hpos' r (hmem_take r hr)) (hpos' t (hmem_drop t htd))).mp hrel

/-- Concrete witness state for the brute-force claims. -/
def bfWit : BruteForceCosineSimilarityIndex :=
  ⟨[(1, [1, 0]), (2, [0, 1]), (3, [1, 1])]⟩

/-- Constant embedding provider used by concrete witnesses. -/
def embWit : EmbedFn := fun _ => [1, 0]

/-- Witness for C1 at a concrete state and query. -/
theorem C1_bruteforce_search_exact_witness :
    bfWit.embeddings ≠ [] ∧ normSq (embWit "q") ≠ 0 ∧
      BruteForceCosineSimilarityIndex.search embWit bfWit "q" 2
        = (sortDesc (bfSims bfWit (embWit "q"))).take 2 :=
  ⟨by decide, by norm_num [embWit, normSq, dotp],
    (C1_bruteforce_search_exact embWit bfWit "q" 2 (by decide)
      (by norm_num [embWit, normSq, dotp])).1⟩

/-! ### Concrete states exercising the defective code paths -/

/-- A three-node NSW state whose graph is fully connected: ids 1, 2, 3
with vectors along the axes and the diagonal, every node adjacent to the
other two (exactly the state rebuild produces for these vectors with the
default out-degree target). -/
def nswC2 : NSWIndex :=
  ⟨[(1, [1, 0]), (2, [0, 1]), (3, [1, 1])],
   [(1, [2, 3]), (2, [1, 3]), (3, [1, 2])], 5⟩

/-- C2: the claim states that the traversal loop stops only when the
candidate list is empty or when at least k results are held and the next
candidate is worse than the current one.  In the source the break runs
right after the pop and before neighbor exploration, and Python parses
the combined conditional so that an empty popped candidate list breaks
unconditionally; since the loop starts from a single seeded candidate,
the first iteration always breaks.  On this fully connected three-node
state with k = 2 the search returns only the entry point, with one
result instead of two, although all three nodes are reachable and node 3
has positive similarity: the loop did not stop by the claimed rule. -/
theorem C2_nsw_greedy_stop_code_eval :
    NSWIndex.search embWit nswC2 "query" 2 = Except.ok [⟨1, ⟨1, 1⟩⟩]
    ∧ ([(⟨1, ⟨1, 1⟩⟩ : SearchResult)]).length = 1
    ∧ nswC2.graph.length = 3 := by
  refine ⟨?_, by decide, by decide⟩
  norm_num [NSWIndex.search, nswC2, embWit, nswLoop, maxCand,
    NSWIndex.cosineSimilarity, alookup, sortDesc, insertDesc, Score.ltB,
    mkConf, normSq, dotp, hasKey, List.find?, List.cons_ne_nil]

/-- A trained two-cluster IVF state: centroids 0 and 10 on the line,
id 7 assigned to cluster 0, id 8 to cluster 1 (the state a rebuild of the
two records produces with the scikit-learn centroids for this data). -/
def ivfC4 : IVFIndex :=
  ⟨2, some ⟨[[0], [10]]⟩, [(0, [7]), (1, [8])], [(7, [0]), (8, [10])]⟩

/-- Records used by the NSW referential-consistency scenario. -/
def recsC4 : List Record :=
  [⟨1, some [1, 0]⟩, ⟨2, some [1, 1]⟩, ⟨3, some [0, 1]⟩]

/-- C4: re-adding id 7 with a vector near the other centroid appends it
to cluster 1 while its old entry in cluster 0 stays: the id now sits in
two clusters at once (first two conjuncts).  For NSW, rebuilding three
records with out-degree one yields asymmetric edges (node 3 points to
node 2, which points back to node 1); removing node 2 then leaves node 3
with an out-neighbor that has no vector in the embedding map (final
conjunct): referential consistency is violated on both indexes. -/
theorem C4_referential_consistency_code_eval :
    IVFIndex.add ivfC4 ⟨7, some [10]⟩
      = Except.ok ⟨2, some ⟨[[0], [10]]⟩, [(0, [7]), (1, [8, 7])],
          [(7, [10]), (8, [10])]⟩
    ∧ (7 ∈ ([7] : List Nat) ∧ 7 ∈ ([8, 7] : List Nat))
    ∧ NSWIndex.remove (NSWIndex.rebuild ⟨[], [], 1⟩ recsC4) 2
        = ⟨[(1, [1, 0]), (3, [0, 1])], [(1, []), (3, [2])], 1⟩ := by
  refine ⟨?_, ⟨by decide, by decide⟩, ?_⟩
  · norm_num [IVFIndex.add, ivfC4, KMeansModel.predict, KMeansModel.nFeatures,
      argminIdx, argminAux, distSq, normSq, dotp, appendToCluster, hasKey,
      aupdate, aset]
  · norm_num [NSWIndex.remove, NSWIndex.rebuild, recsC4,
      NSWIndex.findNearestNeighbors, sortDesc, insertDesc, Score.ltB, mkConf,
      normSq, dotp, aset, aerase, aupdate, alookup, hasKey, List.find?,
      setFromList, setInsert, setErase] <;> decide

/-- A trained one-cluster IVF state holding a zero vector (id 1) and a
unit vector (id 2) in the probed cluster. -/
def ivfC6 : IVFIndex :=
  ⟨1, some ⟨[[1, 0]]⟩, [(0, [1, 2])], [(1, [0, 0]), (2, [1, 0])]⟩

/-- C6: IVFIndex.search computes the cosine quotient without the zero
guard the other indexes have, so the zero-norm stored vector of a probed
cluster is scored 0/0, the float NaN (modelled as a Score with a zero
denominator square), instead of being skipped or scored 0.0; and since
every float comparison with a NaN is false, the Python descending sort
leaves the NaN entry in front here: the zero-norm vector is returned
ranked above the result with similarity one. -/
theorem C6_ivf_zero_norm_code_eval :
    IVFIndex.search embWit ivfC6 "q" 5
      = Except.ok [⟨1, ⟨0, 0⟩⟩, ⟨2, ⟨1, 1⟩⟩]
    ∧ (⟨0, 0⟩ : Score).denSq = 0
    ∧ Score.ltB ⟨0, 0⟩ ⟨1, 1⟩ = false := by
  refine ⟨?_, by norm_num, by norm_num [Score.ltB]⟩
  norm_num [IVFIndex.search, ivfC6, embWit, isBlank, KMeansModel.predict,
    KMeansModel.nFeatures, argminIdx, argminAux, distSq, normSq, dotp,
    IVFIndex.candidateIds, IVFIndex.probedClusters, argsortAsc, insertIdxAsc,
    alookup, hasKey, List.find?, sortDesc, insertDesc, Score.ltB,
    List.cons_ne_nil] <;> decide

/-- C7: on an untrained IVF index with the default configuration of 100
clusters, add fits a fresh KMeans estimator with n_clusters = 100 on the
single new vector; scikit-learn rejects a fit with fewer samples than
clusters, so the operation raises instead of training the one-centroid
partitioner the claim describes, and no cluster assignment happens. -/
theorem C7_ivf_untrained_add_code_eval :
    IVFIndex.add ⟨100, none, [], []⟩ ⟨1, some [1, 0]⟩
      = Except.error "KMeans.fit: n_samples should be >= n_clusters" := by
  norm_num [IVFIndex.add]

/-- C3 counterexample: the brute-force index holds a three-dimensional
vector; adding a record with a two-dimensional embedding succeeds and
stores the mismatched vector, so the add neither fails with
DimensionMismatch nor leaves the state unchanged: no index in the source
checks dimensions on add. -/
theorem C3_dimension_guard_counterexample :
    (BruteForceCosineSimilarityIndex.add ⟨[(1, [1, 0, 0])]⟩
        ⟨2, some [1, 0]⟩).embeddings
      = [(1, [1, 0, 0]), (2, [1, 0])]
    ∧ BruteForceCosineSimilarityIndex.add ⟨[(1, [1, 0, 0])]⟩ ⟨2, some [1, 0]⟩
        ≠ ⟨[(1, [1, 0, 0])]⟩ := by
  constructor
  · norm_num [BruteForceCosineSimilarityIndex.add, aset, hasKey]
  · intro h
    have h2 := congrArg (fun st => st.embeddings.length) h
    norm_num [BruteForceCosineSimilarityIndex.add, aset, hasKey] at h2

/-- C3 amended: no index validates dimensions up front, and none raises
a dedicated DimensionMismatch.  BruteForceCosine stores a mismatched
vector silently (state changed, no error).  NSWIndex.add stores the
vector and then raises a ValueError from the dot product of the neighbor
scan whenever a non-zero-norm stored vector of another dimension exists:
the state changed (embedding stored, no graph entry) AND an error
escapes.  Only IVF on a trained index fails the feature-count validation
of the fitted estimator during predict, a generic library error, with
the index state unchanged. -/
theorem C3_dimension_guard_amended :
    (∀ (s : IVFIndex) (km : KMeansModel) (r : Record) (e : Vec),
        s.kmeans = some km → r.embedding = some e →
          e.length ≠ km.nFeatures →
            IVFIndex.add s r = Except.error "predict: feature count mismatch")
    ∧ (∀ (b : BruteForceCosineSimilarityIndex) (r : Record) (e : Vec),
        r.embedding = some e → hasKey b.embeddings r.id = false →
          (BruteForceCosineSimilarityIndex.add b r).embeddings
            = b.embeddings ++ [(r.id, e)])
    ∧ (∀ (n : NSWIndex) (r : Record) (e : Vec),
        r.embedding = some e →
          dimClash (aset n.embeddings r.id e) r.id e = true →
            NSWIndex.add n r
              = (⟨aset n.embeddings r.id e, n.graph, n.nNeighbors⟩,
                  some "ValueError: dot of mismatched shapes")) := by
  refine ⟨?_, ?_, ?_⟩
  · intro s km r e hkm hre hdim
    simp [IVFIndex.add, hre, hkm, KMeansModel.predict, if_pos hdim]
  · intro b r e hre hkey
    simp [BruteForceCosineSimilarityIndex.add, hre, aset, hkey]
  · intro n r e hre hclash
    simp [NSWIndex.add, hre, hclash]

/-- Witness for the amended C3 at concrete states. -/
theorem C3_dimension_guard_amended_witness :
    (ivfC4.kmeans = some ⟨[[0], [10]]⟩
      ∧ (⟨9, some [1, 2, 3]⟩ : Record).embedding = some [1, 2, 3]
      ∧ ([1, 2, 3] : Vec).length ≠ (⟨[[0], [10]]⟩ : KMeansModel).nFeatures
      ∧ IVFIndex.add ivfC4 ⟨9, some [1, 2, 3]⟩
          = Except.error "predict: feature count mismatch")
    ∧ (hasKey ([(1, [1, 0, 0])] : List (Nat × Vec)) 2 = false
      ∧ (BruteForceCosineSimilarityIndex.add ⟨[(1, [1, 0, 0])]⟩
            ⟨2, some [1, 0]⟩).embeddings
          = [(1, [1, 0, 0])] ++ [(2, [1, 0])])
    ∧ (dimClash
          (aset ([(1, [1, 0, 0])] : List (Nat × Vec)) 2 [1, 0]) 2 [1, 0]
          = true
      ∧ NSWIndex.add ⟨[(1, [1, 0, 0])], [(1, [])], 5⟩ ⟨2, some [1, 0]⟩
          = (⟨aset ([(1, [1, 0, 0])] : List (Nat × Vec)) 2 [1, 0], [(1, [])], 5⟩,
              some "ValueError: dot of mismatched shapes")) := by
  have hclash : dimClash
      (aset ([(1, [1, 0, 0])] : List (Nat × Vec)) 2 [1, 0]) 2 [1, 0] = true := by
    norm_num [dimClash, aset, hasKey, normSq, dotp]
  exact ⟨⟨rfl, rfl, by norm_num [KMeansModel.nFeatures],
      (C3_dimension_guard_amended.1 ivfC4 ⟨[[0], [10]]⟩ ⟨9, some [1, 2, 3]⟩
        [1, 2, 3] rfl rfl (by norm_num [KMeansModel.nFeatures]))⟩,
    ⟨by decide,
      (C3_dimension_guard_amended.2.1 ⟨[(1, [1, 0, 0])]⟩ ⟨2, some [1, 0]⟩
        [1, 0] rfl (by decide))⟩,
    ⟨hclash,
      (C3_dimension_guard_amended.2.2 ⟨[(1, [1, 0, 0])], [(1, [])], 5⟩
        ⟨2, some [1, 0]⟩ [1, 0] rfl hclash)⟩⟩

/-- C10: IVFIndex.search returns the empty list on a blank (empty or
whitespace-only) query before the embedding provider is consulted: the
result is the empty list for every provider and every state, trained or
not.  The brute-force and NSW searches perform no such query-content
check: on a non-empty index they embed a whitespace-only query and return
results (last two conjuncts). -/
theorem C10_blank_query_guard :
    (∀ (embed : EmbedFn) (s : IVFIndex) (q : String) (k : Nat),
        isBlank q = true → IVFIndex.search embed s q k = Except.ok [])
    ∧ BruteForceCosineSimilarityIndex.search embWit ⟨[(1, [1, 0])]⟩ "  " 5 ≠ []
    ∧ NSWIndex.search embWit ⟨[(1, [1, 0])], [(1, [])], 5⟩ "  " 5
        ≠ Except.ok [] := by
  refine ⟨?_, ?_, ?_⟩
  · intro embed s q k h
    simp [IVFIndex.search, h]
  · norm_num [BruteForceCosineSimilarityIndex.search, embWit, bfSims, normSq,
      dotp, scoreOf, mkConf, sortDesc, insertDesc, List.cons_ne_nil]
  · norm_num [NSWIndex.search, embWit, nswLoop, maxCand,
      NSWIndex.cosineSimilarity, alookup, sortDesc, insertDesc, Score.ltB,
      mkConf, normSq, dotp, List.find?, List.cons_ne_nil]

/-- Witness for C10 at a blank query and a concrete trained state. -/
theorem C10_blank_query_guard_witness :
    isBlank "  " = true ∧ IVFIndex.search embWit ivfC6 "  " 3 = Except.ok [] :=
  ⟨by decide, C10_blank_query_guard.1 embWit ivfC6 "  " 3 (by decide)⟩

/-! ### Key-set lemmas for the dict model -/

/-- The membership test agrees with key-list membership. -/
theorem hasKey_iff_mem {α : Type} (m : List (Nat × α)) (k : Nat) :
    hasKey m k = true ↔ k ∈ keysOf m := by
  unfold hasKey keysOf
  simp only [List.any_eq_true, beq_iff_eq, List.mem_map]

/-- Updating a value in place does not change the key list. -/
theorem keysOf_aupdate {α : Type} (m : List (Nat × α)) (k : Nat) (f : α → α) :
    keysOf (aupdate m k f) = keysOf m := by
  unfold keysOf aupdate
  rw [List.map_map]
  refine List.map_congr_left ?_
  intro p _
  by_cases h : (p.1 == k) = true
  · simp [Function.comp, h]
  · simp only [Function.comp]
    rw [if_neg h]

/-- Assigning to an existing key does not change the key list. -/
theorem keysOf_aset_mem {α : Type} (m : List (Nat × α)) (k : Nat) (v : α)
    (h : k ∈ keysOf m) : keysOf (aset m k v) = keysOf m := by
  unfold aset
  rw [if_pos ((hasKey_iff_mem m k).mpr h)]
  unfold keysOf
  rw [List.map_map]
  refine List.map_congr_left ?_
  intro p _
  by_cases hp : (p.1 == k) = true
  · simp only [Function.comp]
    rw [if_pos hp]
    exact (beq_iff_eq.mp hp).symm
  · simp only [Function.comp]
    rw [if_neg hp]

/-- Assigning to a fresh key appends it to the key list. -/
theorem keysOf_aset_not_mem {α : Type} (m : List (Nat × α)) (k : Nat) (v : α)
    (h : k ∉ keysOf m) : keysOf (aset m k v) = keysOf m ++ [k] := by
  have hk : ¬ (hasKey m k = true) := fun hc => h ((hasKey_iff_mem m k).mp hc)
  unfold aset
  rw [if_neg hk]
  unfold keysOf
  simp

/-- Deleting a key filters it out of the key list. -/
theorem keysOf_aerase {α : Type} (m : List (Nat × α)) (k : Nat) :
    keysOf (aerase m k) = (keysOf m).filter (fun x => x ≠ k) := by
  induction m with
  | nil => rfl
  | cons p rest ih =>
    by_cases h : p.1 = k
    · simp [aerase, keysOf, List.filter, h] at *
      exact ih
    · simp [aerase, keysOf, List.filter, h] at *
      exact ih

/-- Deleting an absent key is the identity. -/
theorem aerase_of_not_mem {α : Type} (m : List (Nat × α)) (k : Nat)
    (h : k ∉ keysOf m) : aerase m k = m := by
  unfold aerase
  rw [List.filter_eq_self]
  intro p hp
  simp only [decide_eq_true_eq]
  intro hc
  exact h (by rw [← hc]; exact List.mem_map_of_mem (·.1) hp)

/-- A lookup misses exactly when the key is absent. -/
theorem alookup_none_iff {α : Type} (m : List (Nat × α)) (k : Nat) :
    alookup m k = none ↔ k ∉ keysOf m := by
  unfold alookup
  rw [Option.map_eq_none', List.find?_eq_none]
  constructor
  · intro h hc
    rcases List.mem_map.mp hc with ⟨p, hp, he⟩
    exact absurd (beq_iff_eq.mpr he) (by simpa using h p hp)
  · intro h p hp
    simp only [beq_iff_eq]
    intro hc
    exact h (by rw [← hc]; exact List.mem_map_of_mem (·.1) hp)

/-- Folding in-place value updates over any id list keeps the key list. -/
theorem keysOf_foldl_aupdate {α : Type} (l : List Nat) (g : List (Nat × α))
    (f : Nat → α → α) :
    keysOf (l.foldl (fun g n => aupdate g n (f n)) g) = keysOf g := by
  induction l generalizing g with
  | nil => rfl
  | cons n ns ih => rw [List.foldl_cons, ih, keysOf_aupdate]

/-! ### C9: NSW key-set invariant -/

/-- The NSW states reachable from a freshly constructed index through
rebuilds, adds and removes whose execution completes: a rebuild whose
graph-building pass would raise (mixed dimensions in the snapshot, which
in the source leaves the graph partial) and an add that raises from the
neighbor scan are excluded, because the source aborts them half-way.
Removes never raise. -/
inductive NSWReachable : NSWIndex → Prop
  | init (m : Nat) : NSWReachable ⟨[], [], m⟩
  | rebuild (s : NSWIndex) (items : List Record) :
      NSWReachable s →
      nswRebuildRaises (NSWIndex.rebuild s items).embeddings = false →
      NSWReachable (NSWIndex.rebuild s items)
  | add (s : NSWIndex) (it : Record) :
      NSWReachable s → (NSWIndex.add s it).2 = none →
      NSWReachable (NSWIndex.add s it).1
  | remove (s : NSWIndex) (i : Nat) :
      NSWReachable s → NSWReachable (NSWIndex.remove s i)

/-- The rebuilt graph carries exactly the embedding keys. -/
theorem nsw_rebuild_keys (s : NSWIndex) (items : List Record) :
    keysOf (NSWIndex.rebuild s items).embeddings
      = keysOf (NSWIndex.rebuild s items).graph := by
  unfold NSWIndex.rebuild
  simp [keysOf, List.map_map, Function.comp]

/-- A completing add (one that does not raise) preserves equality of the
two key lists. -/
theorem nsw_add_keys (s : NSWIndex) (it : Record)
    (h : keysOf s.embeddings = keysOf s.graph)
    (hok : (NSWIndex.add s it).2 = none) :
    keysOf (NSWIndex.add s it).1.embeddings
      = keysOf (NSWIndex.add s it).1.graph := by
  unfold NSWIndex.add at hok ⊢
  cases he : it.embedding with
  | none => exact h
  | some e =>
    rw [he] at hok
    simp only at hok ⊢
    by_cases hcl : dimClash (aset s.embeddings it.id e) it.id e = true
    · rw [if_pos hcl] at hok
      cases hok
    · rw [if_neg hcl] at hok ⊢
      simp only
      rw [keysOf_foldl_aupdate _ _ (fun _ v => setInsert v it.id)]
      by_cases hk : it.id ∈ keysOf s.embeddings
      · rw [keysOf_aset_mem _ _ _ hk, keysOf_aset_mem _ _ _ (h ▸ hk), h]
      · rw [keysOf_aset_not_mem _ _ _ hk,
          keysOf_aset_not_mem _ _ _ (fun hc => hk (h ▸ hc)), h]

/-- remove preserves equality of the two key lists. -/
theorem nsw_remove_keys (s : NSWIndex) (i : Nat)
    (h : keysOf s.embeddings = keysOf s.graph) :
    keysOf (NSWIndex.remove s i).embeddings
      = keysOf (NSWIndex.remove s i).graph := by
  unfold NSWIndex.remove
  cases hl : alookup s.graph i with
  | none =>
    simp only
    have hni : i ∉ keysOf s.graph := (alookup_none_iff _ _).mp hl
    rw [aerase_of_not_mem _ _ (h ▸ hni)]
    exact h
  | some nbrs =>
    simp only
    rw [keysOf_aerase, keysOf_aerase,
      keysOf_foldl_aupdate _ _ (fun _ v => setErase v i), h]

/-- C9 as amended: on every NSW state reached through operations that
complete without raising, the key list of the embedding map equals the
key list of the adjacency map; consequently, whenever search finds the
embedding map non-empty, the adjacency map is non-empty as well, so an
entry point can be drawn from it.  The original claim over arbitrary
sequences fails in the source: a mismatched-dimension add raises after
storing the embedding and before the graph entry, see the
counterexample. -/
theorem C9_nsw_keyset_invariant (s : NSWIndex) (h : NSWReachable s) :
    keysOf s.embeddings = keysOf s.graph
    ∧ (s.embeddings ≠ [] → s.graph ≠ []) := by
  have hk : keysOf s.embeddings = keysOf s.graph := by
    induction h with
    | init m => rfl
    | rebuild s items _ _ _ => exact nsw_rebuild_keys s items
    | add s it _ hok ih => exact nsw_add_keys s it ih hok
    | remove s i _ ih => exact nsw_remove_keys s i ih
  refine ⟨hk, ?_⟩
  intro hne hg
  apply hne
  have : keysOf s.embeddings = [] := by rw [hk, hg]; rfl
  exact List.map_eq_nil.mp this

/-- The state after one completing add of a two-dimensional vector to a
fresh index. -/
def nswC9a : NSWIndex := (NSWIndex.add ⟨[], [], 5⟩ ⟨1, some [1, 0]⟩).1

/-- Adding a three-dimensional vector to that state: the neighbor scan
dots it against the stored two-dimensional vector and raises, after the
embedding map was mutated and before any graph update. -/
def nswC9 : NSWIndex × Option String := NSWIndex.add nswC9a ⟨2, some [1, 0, 0]⟩

/-- C9 counterexample: the original claim fails on the source.  The
interrupted add leaves the embedding keys at 1 and 2 while the graph
keys stay at 1 (key sets unequal), and the add raised; removing id 1
afterwards yields a state with a non-empty embedding map and an empty
adjacency map, on which search raises StopIteration when drawing the
entry point instead of returning results. -/
theorem C9_nsw_keyset_counterexample :
    keysOf nswC9.1.embeddings = [1, 2]
    ∧ keysOf nswC9.1.graph = [1]
    ∧ nswC9.2 = some "ValueError: dot of mismatched shapes"
    ∧ (NSWIndex.remove nswC9.1 1).embeddings ≠ []
    ∧ NSWIndex.search embWit (NSWIndex.remove nswC9.1 1) "q" 1
        = Except.error "StopIteration: entry point from empty graph" := by
  have hstate : nswC9
      = (⟨[(1, [1, 0]), (2, [1, 0, 0])], [(1, [])], 5⟩,
          some "ValueError: dot of mismatched shapes") := by
    norm_num [nswC9, nswC9a, NSWIndex.add, dimClash, aset, hasKey,
      NSWIndex.findNearestNeighbors, sortDesc, insertDesc, mkConf, normSq,
      dotp, setFromList, setInsert, aupdate, keysOf]
  refine ⟨?_, ?_, ?_, ?_, ?_⟩
  · rw [hstate]
    decide
  · rw [hstate]
    decide
  · rw [hstate]
  · rw [hstate]
    norm_num [NSWIndex.remove, alookup, List.find?, aerase, aupdate,
      setErase, keysOf, List.cons_ne_nil]
  · rw [hstate]
    norm_num [NSWIndex.remove, alookup, List.find?, aerase, aupdate,
      setErase, NSWIndex.search, embWit, normSq, dotp, List.cons_ne_nil]

/-- Witness for the amended C9 at a concrete reachable state. -/
theorem C9_nsw_keyset_invariant_witness :
    keysOf (NSWIndex.add ⟨[], [], 5⟩ ⟨1, some [1, 0]⟩).1.embeddings
      = keysOf (NSWIndex.add ⟨[], [], 5⟩ ⟨1, some [1, 0]⟩).1.graph :=
  (C9_nsw_keyset_invariant _
    (NSWReachable.add ⟨[], [], 5⟩ ⟨1, some [1, 0]⟩ (NSWReachable.init 5)
      (by norm_num [NSWIndex.add, dimClash, aset, hasKey, normSq, dotp]))).1

/-! ### C5: IVF locality -/

/-- A successful lookup returns a binding present in the list. -/
theorem alookup_mem {α : Type} {m : List (Nat × α)} {k : Nat} {v : α}
    (h : alookup m k = some v) : (k, v) ∈ m := by
  unfold alookup at h
  rcases Option.map_eq_some'.mp h with ⟨pr, hfind, hv⟩
  have hmem := List.mem_of_find?_eq_some hfind
  have hpred := List.find?_some hfind
  have hk : pr.1 = k := by simpa using hpred
  have hpr : pr = (k, v) := by
    cases pr
    simp only at hk hv
    rw [hk, hv]
  rw [← hpr]
  exact hmem

/-- Membership in the candidate gathering fold comes from the initial
accumulator or from a probed cluster list. -/
theorem foldl_gather_mem (cs : List Nat) (m : List (Nat × List Nat))
    (acc : List Nat) (i : Nat)
    (h : i ∈ cs.foldl
      (fun acc c =>
        match alookup m c with
        | some l => acc ++ l
        | none => acc) acc) :
    i ∈ acc ∨ ∃ c ∈ cs, i ∈ (alookup m c).getD [] := by
  induction cs generalizing acc with
  | nil => exact Or.inl h
  | cons c cs ih =>
    rw [List.foldl_cons] at h
    cases hl : alookup m c with
    | none =>
      rw [hl] at h
      rcases ih acc h with hi | ⟨c2, hc2, hic2⟩
      · exact Or.inl hi
      · exact Or.inr ⟨c2, List.mem_cons_of_mem c hc2, hic2⟩
    | some l =>
      rw [hl] at h
      rcases ih (acc ++ l) h with hi | ⟨c2, hc2, hic2⟩
      · rcases List.mem_append.mp hi with hia | hil
        · exact Or.inl hia
        · exact Or.inr ⟨c, List.mem_cons_self c cs, by rw [hl]; exact hil⟩
      · exact Or.inr ⟨c2, List.mem_cons_of_mem c hc2, hic2⟩

/-- C5: every id a trained IVF search returns lies in one of the probed
clusters, the min(3, cluster-key-count) centroid indices nearest to the
query (first part); and when the cluster member lists are pairwise
disjoint across distinct keys, no returned id lies in the member list of
any non-probed cluster (second part). -/
theorem C5_ivf_probed_locality
    (embed : EmbedFn) (s : IVFIndex) (q : String) (k : Nat) (km : KMeansModel)
    (res : List SearchResult) (hkm : s.kmeans = some km)
    (hres : IVFIndex.search embed s q k = Except.ok res) :
    (∀ r ∈ res, ∃ c ∈ IVFIndex.probedClusters s km (embed q),
        r.id ∈ (alookup s.clusterAssignments c).getD [])
    ∧ ((∀ p1 ∈ s.clusterAssignments, ∀ p2 ∈ s.clusterAssignments,
          p1.1 ≠ p2.1 → ∀ j ∈ p1.2, j ∉ p2.2) →
        (keysOf s.clusterAssignments).Nodup →
          ∀ r ∈ res, ∀ p ∈ s.clusterAssignments,
            p.1 ∉ IVFIndex.probedClusters s km (embed q) → r.id ∉ p.2) := by
  have hmain : ∀ r ∈ res, ∃ c ∈ IVFIndex.probedClusters s km (embed q),
      r.id ∈ (alookup s.clusterAssignments c).getD [] := by
    intro r hr
    unfold IVFIndex.search at hres
    by_cases hb : isBlank q = true
    · rw [if_pos hb] at hres
      cases hres
      cases hr
    · rw [if_neg hb, hkm] at hres
      simp only at hres
      by_cases hemp : s.embeddings = []
      · rw [if_pos hemp] at hres
        cases hres
        cases hr
      · rw [if_neg hemp] at hres
        cases hpred : km.predict (embed q) with
        | error msg => rw [hpred] at hres; cases hres
        | ok c0 =>
          rw [hpred] at hres
          simp only at hres
          by_cases hc : IVFIndex.candidateIds s km (embed q) = []
          · rw [if_pos hc] at hres
            cases hres
            cases hr
          · rw [if_neg hc] at hres
            have hresval := (Except.ok.injEq _ _).mp hres
            rw [← hresval] at hr
            have hr2 := mem_sortDesc.mp (List.mem_of_mem_take hr)
            rcases List.mem_filterMap.mp hr2 with ⟨i, hi, hmap⟩
            rcases Option.map_eq_some'.mp hmap with ⟨v, _, hrv⟩
            have hid : r.id = i := by rw [← hrv]
            rw [hid]
            have hi2 : i ∈ (IVFIndex.probedClusters s km (embed q)).foldl
                (fun acc c =>
                  match alookup s.clusterAssignments c with
                  | some l => acc ++ l
                  | none => acc) [] := by
              unfold IVFIndex.candidateIds at hi
              exact hi
            rcases foldl_gather_mem (IVFIndex.probedClusters s km (embed q))
                s.clusterAssignments [] i hi2 with habs | hgood
            · cases habs
            · exact hgood
  refine ⟨hmain, ?_⟩
  intro hdisj _ r hr p hp hnp hin
  rcases hmain r hr with ⟨c, hc, hmem⟩
  cases hl : alookup s.clusterAssignments c with
  | none => rw [hl] at hmem; cases hmem
  | some l =>
    rw [hl] at hmem
    have hcl : (c, l) ∈ s.clusterAssignments := alookup_mem hl
    have hne : (c, l).1 ≠ p.1 := by
      intro he
      exact hnp (he ▸ hc)
    exact hdisj (c, l) hcl p hp hne r.id hmem hin

/-- A trained two-cluster IVF state for the C5 witness. -/
def ivfC5 : IVFIndex :=
  ⟨2, some ⟨[[1], [10]]⟩, [(0, [1]), (1, [2])], [(1, [1]), (2, [10])]⟩

/-- Embedding provider mapping every query near the second centroid. -/
def embC5 : EmbedFn := fun _ => [9]

/-- Witness for C5 at a concrete trained state and query. -/
theorem C5_ivf_probed_locality_witness :
    ivfC5.kmeans = some ⟨[[1], [10]]⟩
    ∧ IVFIndex.search embC5 ivfC5 "x" 5
        = Except.ok [⟨2, ⟨90, 8100⟩⟩, ⟨1, ⟨9, 81⟩⟩]
    ∧ ∀ r ∈ [(⟨2, ⟨90, 8100⟩⟩ : SearchResult), ⟨1, ⟨9, 81⟩⟩],
        ∃ c ∈ IVFIndex.probedClusters ivfC5 ⟨[[1], [10]]⟩ (embC5 "x"),
          r.id ∈ (alookup ivfC5.clusterAssignments c).getD [] := by
  have hblank : isBlank "x" = false := by decide
  have hsearch : IVFIndex.search embC5 ivfC5 "x" 5
      = Except.ok [⟨2, ⟨90, 8100⟩⟩, ⟨1, ⟨9, 81⟩⟩] := by
    norm_num [IVFIndex.search, ivfC5, embC5, hblank, KMeansModel.predict,
      KMeansModel.nFeatures, argminIdx, argminAux, distSq, normSq, dotp,
      IVFIndex.candidateIds, IVFIndex.probedClusters, argsortAsc,
      insertIdxAsc, List.enum, List.enumFrom, alookup, hasKey, List.find?,
      sortDesc, insertDesc, Score.ltB, List.cons_ne_nil]
  exact ⟨rfl, hsearch,
    (C5_ivf_probed_locality embC5 ivfC5 "x" 5 ⟨[[1], [10]]⟩ _ rfl hsearch).1⟩

/-! ### C8: add-remove cancellation, supporting lemmas -/

/-- Set insertion is idempotent. -/
theorem setInsert_idem (s : List Nat) (x : Nat) :
    setInsert (setInsert s x) x = setInsert s x := by
  unfold setInsert
  by_cases h : x ∈ s
  · rw [if_pos h, if_pos h]
  · rw [if_neg h, if_pos (by simp)]

/-- Set erasure is idempotent. -/
theorem setErase_idem (s : List Nat) (x : Nat) :
    setErase (setErase s x) x = setErase s x := by
  unfold setErase
  rw [List.filter_filter]
  simp

/-- Erasing a freshly inserted element restores the set. -/
theorem setErase_setInsert (s : List Nat) (x : Nat) (h : x ∉ s) :
    setErase (setInsert s x) x = s := by
  unfold setInsert setErase
  rw [if_neg h, List.filter_append]
  have h1 : s.filter (· ≠ x) = s := by
    rw [List.filter_eq_self]
    intro y hy
    simp only [decide_eq_true_eq]
    intro hc
    exact h (hc ▸ hy)
  rw [h1]
  simp

/-- Membership after inserting. -/
theorem mem_setInsert (s : List Nat) (x y : Nat) :
    y ∈ setInsert s x ↔ y ∈ s ∨ y = x := by
  unfold setInsert
  by_cases h : x ∈ s
  · rw [if_pos h]
    constructor
    · exact Or.inl
    · rintro (hy | rfl)
      · exact hy
      · exact h
  · rw [if_neg h]
    simp

/-- Membership in the fold building a set. -/
theorem mem_foldl_setInsert (l : List Nat) (acc : List Nat) (y : Nat) :
    y ∈ l.foldl setInsert acc ↔ y ∈ acc ∨ y ∈ l := by
  induction l generalizing acc with
  | nil => simp
  | cons x xs ih =>
    rw [List.foldl_cons, ih, mem_setInsert]
    simp only [List.mem_cons]
    tauto

/-- Converting a list to a set preserves membership. -/
theorem mem_setFromList (l : List Nat) (y : Nat) :
    y ∈ setFromList l ↔ y ∈ l := by
  unfold setFromList
  rw [mem_foldl_setInsert]
  simp

/-- Assigning a fresh key appends the binding. -/
theorem aset_fresh {α : Type} (m : List (Nat × α)) (k : Nat) (v : α)
    (h : k ∉ keysOf m) : aset m k v = m ++ [(k, v)] := by
  unfold aset
  rw [if_neg (fun hc => h ((hasKey_iff_mem m k).mp hc))]

/-- Deleting a key that only the final appended binding holds restores
the original list. -/
theorem aerase_append_single {α : Type} (m : List (Nat × α)) (k : Nat) (v : α)
    (h : k ∉ keysOf m) : aerase (m ++ [(k, v)]) k = m := by
  unfold aerase
  rw [List.filter_append]
  have h1 : m.filter (fun p => p.1 ≠ k) = m := by
    rw [List.filter_eq_self]
    intro p hp
    simp only [decide_eq_true_eq]
    intro hc
    exact h (hc ▸ List.mem_map_of_mem (·.1) hp)
  rw [h1]
  simp

/-- Updating an absent key is the identity. -/
theorem aupdate_of_not_mem {α : Type} (m : List (Nat × α)) (k : Nat)
    (f : α → α) (h : k ∉ keysOf m) : aupdate m k f = m := by
  unfold aupdate
  have : ∀ p ∈ m, (if p.1 == k then (p.1, f p.2) else p) = p := by
    intro p hp
    rw [if_neg]
    intro hc
    exact h (beq_iff_eq.mp hc ▸ List.mem_map_of_mem (·.1) hp)
  rw [List.map_congr_left this]
  simp

/-- Folding an in-place update with an idempotent function over a key
list is the entrywise conditional map. -/
theorem foldl_aupdate_map {α : Type} (ns : List Nat) (g : List (Nat × α))
    (f : α → α) (hf : ∀ v, f (f v) = f v) :
    ns.foldl (fun g n => aupdate g n f) g
      = g.map (fun p => if p.1 ∈ ns then (p.1, f p.2) else p) := by
  induction ns generalizing g with
  | nil =>
    simp
  | cons n ns ih =>
    rw [List.foldl_cons, ih]
    unfold aupdate
    rw [List.map_map]
    refine List.map_congr_left ?_
    intro p _
    simp only [Function.comp, List.mem_cons]
    by_cases h1 : p.1 = n
    · by_cases h2 : p.1 ∈ ns
      · simp [h1, h2, hf]
      · simp [h1, h2, hf]
    · by_cases h2 : p.1 ∈ ns
      · simp [h1, h2]
      · simp [h1, h2]

/-- Lookup through the entrywise conditional map. -/
theorem alookup_mapcond {α : Type} (m : List (Nat × α)) (ns : List Nat)
    (f : α → α) (k : Nat) :
    alookup (m.map (fun p => if p.1 ∈ ns then (p.1, f p.2) else p)) k
      = (alookup m k).map (fun v => if k ∈ ns then f v else v) := by
  induction m with
  | nil => rfl
  | cons p rest ih =>
    simp only [List.map_cons]
    by_cases h2 : p.1 ∈ ns
    · rw [if_pos h2]
      by_cases h1 : p.1 = k
      · subst h1
        unfold alookup
        rw [List.find?_cons_of_pos _ (by simp),
          List.find?_cons_of_pos _ (by simp)]
        simp [h2]
      · unfold alookup at ih ⊢
        rw [List.find?_cons_of_neg _ (by simpa using h1),
          List.find?_cons_of_neg _ (by simpa using h1)]
        exact ih
    · rw [if_neg h2]
      by_cases h1 : p.1 = k
      · subst h1
        unfold alookup
        rw [List.find?_cons_of_pos _ (by simp),
          List.find?_cons_of_pos _ (by simp)]
        simp [h2]
      · unfold alookup at ih ⊢
        rw [List.find?_cons_of_neg _ (by simpa using h1),
          List.find?_cons_of_neg _ (by simpa using h1)]
        exact ih

/-- Lookup of a freshly appended binding. -/
theorem alookup_append_fresh {α : Type} (m : List (Nat × α)) (k : Nat) (v : α)
    (h : k ∉ keysOf m) : alookup (m ++ [(k, v)]) k = some v := by
  induction m with
  | nil => simp [alookup, List.find?]
  | cons p rest ih =>
    have hk : p.1 ≠ k := by
      intro hc
      exact h (hc ▸ List.mem_map_of_mem (·.1) (List.mem_cons_self p rest))
    have hrest : k ∉ keysOf rest := by
      intro hc
      exact h (List.mem_cons_of_mem _ hc)
    simp only [List.cons_append, alookup, List.find?]
    rw [show (p.1 == k) = false by simpa using hk]
    exact ih hrest

/-- A found nearest neighbor is never the item itself. -/
theorem findNearest_ne (emb : List (Nat × Vec)) (itemId : Nat) (e : Vec)
    (k : Nat) :
    ∀ rr ∈ NSWIndex.findNearestNeighbors emb itemId e k, rr.id ≠ itemId := by
  intro rr hr
  unfold NSWIndex.findNearestNeighbors at hr
  have hr2 := mem_sortDesc.mp (List.mem_of_mem_take hr)
  rcases List.mem_map.mp hr2 with ⟨p, hp, he⟩
  rcases List.mem_filter.mp hp with ⟨_, hcond⟩
  have hcond2 : p.1 ≠ itemId ∧ normSq p.2 ≠ 0 := by simpa using hcond
  rw [← he]
  exact hcond2.1

/-- The reverse-edge fold leaves the looked-up entry of the new node
unchanged. -/
theorem nsw_lookup_after_add (graph : List (Nat × List Nat)) (i : Nat)
    (nbrIds : List Nat) (h2 : i ∉ keysOf graph) (hni : i ∉ nbrIds) :
    alookup
      (nbrIds.foldl (fun g n => aupdate g n (fun v => setInsert v i))
        (aset graph i (setFromList nbrIds))) i
      = some (setFromList nbrIds) := by
  rw [aset_fresh graph i _ h2,
    foldl_aupdate_map nbrIds _ _ (fun v => setInsert_idem v i)]
  have hl := alookup_mapcond (graph ++ [(i, setFromList nbrIds)]) nbrIds
    (fun v => setInsert v i) i
  rw [alookup_append_fresh graph i _ h2] at hl
  simp only [Option.map_some', if_neg hni] at hl
  exact hl

/-- Installing the reverse edges of a fresh node and then discarding them
again restores the original graph. -/
theorem nsw_graph_cancel (graph : List (Nat × List Nat)) (i : Nat)
    (nbrIds : List Nat) (h2 : i ∉ keysOf graph)
    (h3 : ∀ p ∈ graph, i ∉ p.2) (hni : i ∉ nbrIds) :
    aerase
      ((setFromList nbrIds).foldl (fun g n => aupdate g n (fun v => setErase v i))
        (nbrIds.foldl (fun g n => aupdate g n (fun v => setInsert v i))
          (aset graph i (setFromList nbrIds)))) i
      = graph := by
  rw [aset_fresh graph i _ h2,
    foldl_aupdate_map nbrIds _ _ (fun v => setInsert_idem v i),
    foldl_aupdate_map (setFromList nbrIds) _ _ (fun v => setErase_idem v i),
    List.map_map]
  have hpt : ∀ p ∈ graph ++ [(i, setFromList nbrIds)],
      ((fun p => if p.1 ∈ setFromList nbrIds then (p.1, setErase p.2 i) else p) ∘
        (fun p => if p.1 ∈ nbrIds then (p.1, setInsert p.2 i) else p)) p = p := by
    intro p hp
    rcases List.mem_append.mp hp with hpg | hpl
    · by_cases hm : p.1 ∈ nbrIds
      · simp only [Function.comp, if_pos hm,
          if_pos ((mem_setFromList nbrIds p.1).mpr hm)]
        rw [setErase_setInsert p.2 i (h3 p hpg)]
      · simp only [Function.comp, if_neg hm,
          if_neg (fun hc => hm ((mem_setFromList nbrIds p.1).mp hc))]
    · have hpi : p = (i, setFromList nbrIds) := by simpa using hpl
      subst hpi
      simp only [Function.comp, if_neg hni,
        if_neg (fun hc => hni ((mem_setFromList nbrIds i).mp hc))]
  rw [List.map_congr_left hpt]
  simp only [List.map_id_fun', id]
  exact aerase_append_single graph i _ h2

/-- Adding a record with a fresh id to an NSW index and removing it again
restores the exact prior state.  This covers both the completing add and
the add interrupted by the mismatched-dimension ValueError, which stored
only the embedding: the remove deletes it and, the id having no graph
entry, leaves the graph untouched. -/
theorem nsw_add_remove_cancel (s : NSWIndex) (r : Record)
    (h1 : r.id ∉ keysOf s.embeddings) (h2 : r.id ∉ keysOf s.graph)
    (h3 : ∀ p ∈ s.graph, r.id ∉ p.2) :
    NSWIndex.remove (NSWIndex.add s r).1 r.id = s := by
  cases s with
  | mk emb graph nn =>
    simp only [keysOf] at h1 h2
    cases he : r.embedding with
    | none =>
      have hadd : (NSWIndex.add ⟨emb, graph, nn⟩ r).1 = ⟨emb, graph, nn⟩ := by
        simp only [NSWIndex.add, he]
      rw [hadd]
      unfold NSWIndex.remove
      rw [(alookup_none_iff graph r.id).mpr h2]
      simp only
      rw [aerase_of_not_mem emb r.id h1]
    | some e =>
      simp only [NSWIndex.add, he]
      by_cases hcl : dimClash (aset emb r.id e) r.id e = true
      · rw [if_pos hcl]
        simp only
        unfold NSWIndex.remove
        rw [(alookup_none_iff graph r.id).mpr h2]
        simp only
        rw [aset_fresh emb r.id e h1, aerase_append_single emb r.id e h1]
      · rw [if_neg hcl]
        simp only
        unfold NSWIndex.remove
        simp only
        rw [nsw_lookup_after_add graph r.id _ h2
          (fun hc => by
            rcases List.mem_map.mp hc with ⟨rr, hrr, hre⟩
            exact findNearest_ne _ _ _ _ rr hrr hre)]
        simp only
        rw [nsw_graph_cancel graph r.id _ h2 h3
          (fun hc => by
            rcases List.mem_map.mp hc with ⟨rr, hrr, hre⟩
            exact findNearest_ne _ _ _ _ rr hrr hre),
          aset_fresh emb r.id e h1, aerase_append_single emb r.id e h1]

/-- Adding a record with a fresh id to the brute-force index and removing
it again restores the exact prior state. -/
theorem bf_add_remove_cancel (s : BruteForceCosineSimilarityIndex)
    (r : Record) (h1 : r.id ∉ keysOf s.embeddings) :
    BruteForceCosineSimilarityIndex.remove
      (BruteForceCosineSimilarityIndex.add s r) r.id = s := by
  cases s with
  | mk emb =>
    simp only [keysOf] at h1
    cases he : r.embedding with
    | none =>
      simp only [BruteForceCosineSimilarityIndex.add, he]
      unfold BruteForceCosineSimilarityIndex.remove
      rw [aerase_of_not_mem emb r.id h1]
    | some e =>
      simp only [BruteForceCosineSimilarityIndex.add, he]
      unfold BruteForceCosineSimilarityIndex.remove
      simp only
      rw [aset_fresh emb r.id e h1, aerase_append_single emb r.id e h1]

/-- Removing the first occurrence of a fresh id that was just appended to
one cluster restores the assignment map (keys must be duplicate-free, as
they are in any state the code builds). -/
theorem removeFirstOcc_aupdate_append (assigns : List (Nat × List Nat))
    (c i : Nat) (h2 : ∀ p ∈ assigns, i ∉ p.2)
    (hnd : (keysOf assigns).Nodup) :
    removeFirstOcc (aupdate assigns c (fun l => l ++ [i])) i = assigns := by
  induction assigns with
  | nil => rfl
  | cons p rest ih =>
    obtain ⟨k0, l0⟩ := p
    have hndk : k0 ∉ keysOf rest ∧ (keysOf rest).Nodup := by
      have hk : keysOf ((k0, l0) :: rest) = k0 :: keysOf rest := rfl
      rw [hk] at hnd
      exact List.nodup_cons.mp hnd
    have hi_head : i ∉ l0 := h2 (k0, l0) (List.mem_cons_self _ rest)
    have h2rest : ∀ q ∈ rest, i ∉ q.2 := fun q hq =>
      h2 q (List.mem_cons_of_mem _ hq)
    by_cases hkc : k0 = c
    · have hcr : c ∉ keysOf rest := hkc ▸ hndk.1
      have hbeq : (k0 == c) = true := beq_iff_eq.mpr hkc
      simp only [aupdate, List.map_cons, hbeq, if_true]
      rw [show List.map
          (fun p => if p.1 == c then (p.1, p.2 ++ [i]) else p) rest
          = aupdate rest c (fun l => l ++ [i]) from rfl,
        aupdate_of_not_mem rest c _ hcr]
      unfold removeFirstOcc
      rw [if_pos (by simp : i ∈ l0 ++ [i])]
      rw [List.erase_append_right _ hi_head, List.erase_cons_head,
        List.append_nil]
    · have hbeq : (k0 == c) = false := by
        simp only [beq_eq_false_iff_ne, ne_eq]
        exact hkc
      simp only [aupdate, List.map_cons, hbeq, Bool.false_eq_true, if_false]
      rw [show List.map
          (fun p => if p.1 == c then (p.1, p.2 ++ [i]) else p) rest
          = aupdate rest c (fun l => l ++ [i]) from rfl]
      unfold removeFirstOcc
      rw [if_neg hi_head]
      rw [ih h2rest hndk.2]

/-- Adding a record with a fresh id to a trained IVF index whose
predicted cluster key exists and removing the id again restores the
exact prior state. -/
theorem ivf_add_remove_cancel (s : IVFIndex) (r : Record) (km : KMeansModel)
    (e : Vec) (c : Nat) (hkm : s.kmeans = some km) (he : r.embedding = some e)
    (hc : km.predict e = Except.ok c)
    (hck : hasKey s.clusterAssignments c = true)
    (h1 : r.id ∉ keysOf s.embeddings)
    (h2 : ∀ p ∈ s.clusterAssignments, r.id ∉ p.2)
    (hnd : (keysOf s.clusterAssignments).Nodup) :
    ∀ s2, IVFIndex.add s r = Except.ok s2 → IVFIndex.remove s2 r.id = s := by
  intro s2 hadd
  cases s with
  | mk n okm assigns emb =>
    simp only at hkm h1 h2 hnd hck
    subst hkm
    have hchar : IVFIndex.add ⟨n, some km, assigns, emb⟩ r
        = Except.ok ⟨n, some km, aupdate assigns c (fun l => l ++ [r.id]),
            emb ++ [(r.id, e)]⟩ := by
      simp only [IVFIndex.add, he, hc, appendToCluster, hck, if_true,
        aset_fresh emb r.id e h1]
    rw [hchar] at hadd
    have hs2 : s2 = ⟨n, some km, aupdate assigns c (fun l => l ++ [r.id]),
        emb ++ [(r.id, e)]⟩ := by
      cases hadd
      rfl
    subst hs2
    unfold IVFIndex.remove
    rw [if_pos]
    · simp only
      rw [removeFirstOcc_aupdate_append assigns c r.id h2 hnd]
      rw [aerase_append_single emb r.id e h1]
    · rw [hasKey_iff_mem]
      simp [keysOf]

/-- C8: for a record whose id the index does not reference, add followed
by remove restores the prior state exactly, hence every subsequent search
on any query returns the same results.  For the brute-force index the id
must be absent from the embedding map; for NSW it must be absent from
both maps and from every out-neighbor set; for IVF the index must be
trained with the predicted cluster key present (as after any rebuild),
the assignment keys duplicate-free, and the id absent from the embedding
map and from every member list.  The hypotheses exclude exactly the
corrupted states produced by the C4 defect and the untrained IVF add of
C7, where the Python add itself raises before a state to cancel exists.
The NSW part needs no completion hypothesis: even when the add raises
from the mismatched-dimension neighbor scan, only the fresh embedding
was stored, and the remove deletes exactly it. -/
theorem C8_add_remove_cancellation :
    (∀ (s : BruteForceCosineSimilarityIndex) (r : Record),
        r.id ∉ keysOf s.embeddings →
          BruteForceCosineSimilarityIndex.remove
              (BruteForceCosineSimilarityIndex.add s r) r.id = s
          ∧ ∀ (embed : EmbedFn) (q : String) (k : Nat),
              BruteForceCosineSimilarityIndex.search embed
                  (BruteForceCosineSimilarityIndex.remove
                    (BruteForceCosineSimilarityIndex.add s r) r.id) q k
                = BruteForceCosineSimilarityIndex.search embed s q k)
    ∧ (∀ (s : NSWIndex) (r : Record),
        r.id ∉ keysOf s.embeddings → r.id ∉ keysOf s.graph →
          (∀ p ∈ s.graph, r.id ∉ p.2) →
            NSWIndex.remove (NSWIndex.add s r).1 r.id = s
            ∧ ∀ (embed : EmbedFn) (q : String) (k : Nat),
                NSWIndex.search embed
                    (NSWIndex.remove (NSWIndex.add s r).1 r.id) q k
                  = NSWIndex.search embed s q k)
    ∧ (∀ (s : IVFIndex) (r : Record) (km : KMeansModel) (e : Vec) (c : Nat),
        s.kmeans = some km → r.embedding = some e →
          km.predict e = Except.ok c →
            hasKey s.clusterAssignments c = true →
              r.id ∉ keysOf s.embeddings →
                (∀ p ∈ s.clusterAssignments, r.id ∉ p.2) →
                  (keysOf s.clusterAssignments).Nodup →
                    ∀ s2, IVFIndex.add s r = Except.ok s2 →
                      IVFIndex.remove s2 r.id = s
                      ∧ ∀ (embed : EmbedFn) (q : String) (k : Nat),
                          IVFIndex.search embed (IVFIndex.remove s2 r.id) q k
                            = IVFIndex.search embed s q k) := by
  refine ⟨?_, ?_, ?_⟩
  · intro s r h1
    have hst := bf_add_remove_cancel s r h1
    exact ⟨hst, fun embed q k => by rw [hst]⟩
  · intro s r h1 h2 h3
    have hst := nsw_add_remove_cancel s r h1 h2 h3
    exact ⟨hst, fun embed q k => by rw [hst]⟩
  · intro s r km e c hkm he hc hck h1 h2 hnd s2 hadd
    have hst := ivf_add_remove_cancel s r km e c hkm he hc hck h1 h2 hnd s2 hadd
    exact ⟨hst, fun embed q k => by rw [hst]⟩

/-- Witness for C8 at concrete states of the three indexes. -/
theorem C8_add_remove_cancellation_witness :
    (9 ∉ keysOf bfWit.embeddings
      ∧ BruteForceCosineSimilarityIndex.remove
          (BruteForceCosineSimilarityIndex.add bfWit ⟨9, some [2, 3]⟩) 9 = bfWit)
    ∧ NSWIndex.remove (NSWIndex.add nswC2 ⟨9, some [1, 1]⟩).1 9 = nswC2
    ∧ IVFIndex.remove
        ⟨2, some ⟨[[1], [10]]⟩, [(0, [1]), (1, [2, 9])],
          [(1, [1]), (2, [10]), (9, [9])]⟩ 9 = ivfC5 := by
  have hadd : IVFIndex.add ivfC5 ⟨9, some [9]⟩
      = Except.ok ⟨2, some ⟨[[1], [10]]⟩, [(0, [1]), (1, [2, 9])],
          [(1, [1]), (2, [10]), (9, [9])]⟩ := by
    norm_num [IVFIndex.add, ivfC5, KMeansModel.predict, KMeansModel.nFeatures,
      argminIdx, argminAux, distSq, normSq, dotp, appendToCluster, hasKey,
      aupdate, aset]
  have hpred : KMeansModel.predict ⟨[[1], [10]]⟩ [9] = Except.ok 1 := by
    norm_num [KMeansModel.predict, KMeansModel.nFeatures, argminIdx,
      argminAux, distSq, normSq, dotp]
  refine ⟨⟨by decide, (C8_add_remove_cancellation.1 bfWit ⟨9, some [2, 3]⟩
      (by decide)).1⟩,
    (C8_add_remove_cancellation.2.1 nswC2 ⟨9, some [1, 1]⟩ (by decide)
      (by decide) (by decide)).1,
    (C8_add_remove_cancellation.2.2 ivfC5 ⟨9, some [9]⟩ ⟨[[1], [10]]⟩ [9] 1
      rfl rfl hpred (by decide) (by decide) (by decide) (by decide) _ hadd).1⟩
